import Mathlib

/-
Verification of the s390 code generator (src/compiler/s390/code-generator-s390.cc)
against its natural-language specification.

The development shallowly embeds the instruction sequences emitted by
AssembleArchInstruction and its helper macros as explicit state transformers
over register files and memories.  Machine integers are modelled as Nat
reduced modulo two to the word width where overflow matters; signed views are
obtained through explicit conversion functions.  Double-precision values are
modelled abstractly (a type parameter with the operation as a function, or an
Option type whose none constructor stands for NaN), since the claims under
study concern operand routing, aliasing and control flow, not IEEE bit-level
arithmetic.  The embedding follows the 64-bit (V8_TARGET_ARCH_S390X)
configuration of the source.
-/

namespace S390

/-- Register names are indices; a register file maps indices to values. -/
abbrev Reg := Nat

/-- A register file over a value type. -/
abbrev RegFile (α : Type) := Nat → α

/-- Write one register of a register file. -/
def setReg {α : Type} (f : RegFile α) (r : Reg) (v : α) : RegFile α :=
  fun x => if x = r then v else f x

/- ---------------------------------------------------------------------------
C1: binary floating-point and complement opcodes of AssembleArchInstruction.
Each definition transcribes one case arm of the dispatch switch, one emitted
instruction per elementary state update.  The scratch register argument scr
stands for kScratchDoubleReg, which the register allocator never assigns.
--------------------------------------------------------------------------- -/

/-- Case kS390_AddDouble of AssembleArchInstruction: if the output aliases
input 1, emit the single-operand mutating form adbr(out, in0); otherwise copy
input 0 into the output when needed and emit adbr(out, in1).  The function
argument dadd is the double-addition operation of the target. -/
def emitAddDouble {α : Type} (dadd : α → α → α) (out in0 in1 : Reg)
    (f : RegFile α) : RegFile α :=
  if out = in1 then
    setReg f out (dadd (f out) (f in0))
  else
    let f1 := if out = in0 then f else setReg f out (f in0)
    setReg f1 out (dadd (f1 out) (f1 in1))

/-- Case kS390_SubDouble of AssembleArchInstruction: if the output aliases
input 1, save input 1 in the scratch double register, copy input 0 into the
output, and subtract the scratch; otherwise copy input 0 into the output when
needed and emit sdbr(out, in1). -/
def emitSubDouble {α : Type} (dsub : α → α → α) (scr out in0 in1 : Reg)
    (f : RegFile α) : RegFile α :=
  if out = in1 then
    let f1 := setReg f scr (f in1)
    let f2 := setReg f1 out (f1 in0)
    setReg f2 out (dsub (f2 out) (f2 scr))
  else
    let f1 := if out = in0 then f else setReg f out (f in0)
    setReg f1 out (dsub (f1 out) (f1 in1))

/-- Case kS390_MulDouble of AssembleArchInstruction (same aliasing policy as
kS390_AddDouble, with mdbr). -/
def emitMulDouble {α : Type} (dmul : α → α → α) (out in0 in1 : Reg)
    (f : RegFile α) : RegFile α :=
  if out = in1 then
    setReg f out (dmul (f out) (f in0))
  else
    let f1 := if out = in0 then f else setReg f out (f in0)
    setReg f1 out (dmul (f1 out) (f1 in1))

/-- Case kS390_DivDouble of AssembleArchInstruction (same aliasing policy as
kS390_SubDouble, with ddbr). -/
def emitDivDouble {α : Type} (ddiv : α → α → α) (scr out in0 in1 : Reg)
    (f : RegFile α) : RegFile α :=
  if out = in1 then
    let f1 := setReg f scr (f in1)
    let f2 := setReg f1 out (f1 in0)
    setReg f2 out (ddiv (f2 out) (f2 scr))
  else
    let f1 := if out = in0 then f else setReg f out (f in0)
    setReg f1 out (ddiv (f1 out) (f1 in1))

/-- Width of a general-purpose register on the 64-bit target. -/
def word64 : Nat := 2 ^ 64

/-- One-complement of a 64-bit value: the in-place effect of NotP(reg). -/
def notP (v : Nat) : Nat := (word64 - 1) - v

/-- Case kS390_AndComplement of AssembleArchInstruction: NotP(in1) complements
input register 1 in place, then AndP(out, in0, in1) writes the conjunction of
the current contents of the two input registers to the output.  The
three-operand AndP form reads both sources before writing the destination
(the macro assembler resolves destination aliasing for the commutative
bitwise operations). -/
def emitAndComplement (out in0 in1 : Reg) (f : RegFile Nat) : RegFile Nat :=
  let f1 := setReg f in1 (notP (f in1))
  setReg f1 out (Nat.land (f1 in0) (f1 in1))

/-- Case kS390_OrComplement of AssembleArchInstruction: NotP(in1) then
OrP(out, in0, in1). -/
def emitOrComplement (out in0 in1 : Reg) (f : RegFile Nat) : RegFile Nat :=
  let f1 := setReg f in1 (notP (f in1))
  setReg f1 out (Nat.lor (f1 in0) (f1 in1))

/- ---------------------------------------------------------------------------
C2: bounds-checked memory access (ASSEMBLE_CHECKED_LOAD_INTEGER,
ASSEMBLE_CHECKED_LOAD_FLOAT, ASSEMBLE_CHECKED_STORE_INTEGER,
ASSEMBLE_CHECKED_STORE_FLOAT32, ASSEMBLE_CHECKED_STORE_DOUBLE and the
out-of-line sentinel objects OutOfLineLoadZero, OutOfLineLoadNAN32,
OutOfLineLoadNAN64).  The MRR memory operand is a base register plus an
offset register; off is the 32-bit offset value held (zero-extended) in the
offset register and len the 32-bit length bound (register or immediate).
Memory is one addressable cell per address; the width-specific access
instruction the macros are instantiated with is abstracted to a read or write
of the cell at the effective address. -/

/-- Effect of the emitted lgfr(offset, offset): the low 32 bits of the offset
register sign-extended, viewed as the integer displacement the subsequent
memory operand uses. -/
def sext32 (v : Nat) : Int := if v % 2 ^ 32 < 2 ^ 31 then ((v % 2 ^ 32 : Nat) : Int)
  else ((v % 2 ^ 32 : Nat) : Int) - 2 ^ 32

/-- Integer memory, one cell per address. -/
abbrev Mem := Int → Nat

/-- ASSEMBLE_CHECKED_LOAD_INTEGER: lgfr sign-extends the offset register in
place; CmpLogical32 compares the (unchanged) low 32 bits against the length
bound, unsigned; bge diverts to OutOfLineLoadZero, which loads immediate
zero into the result; otherwise the load instruction reads the cell at base
plus the sign-extended offset. -/
def checkedLoadInt (mem : Mem) (base : Int) (off len : Nat) : Nat :=
  if len % 2 ^ 32 ≤ off % 2 ^ 32 then 0
  else mem (base + sext32 off)

/-- Result of a checked float load: the quiet-NaN sentinel of the requested
width (materialized by OutOfLineLoadNAN32 or OutOfLineLoadNAN64), or the
value read from the effective address. -/
inductive DoubleVal where
  | qnan32 : DoubleVal
  | qnan64 : DoubleVal
  | read : Int → DoubleVal
deriving DecidableEq

/-- ASSEMBLE_CHECKED_LOAD_FLOAT instantiated at width 32 (kCheckedLoadFloat32):
out-of-range offsets divert to OutOfLineLoadNAN32. -/
def checkedLoadFloat32 (base : Int) (off len : Nat) : DoubleVal :=
  if len % 2 ^ 32 ≤ off % 2 ^ 32 then DoubleVal.qnan32
  else DoubleVal.read (base + sext32 off)

/-- ASSEMBLE_CHECKED_LOAD_FLOAT instantiated at width 64 (kCheckedLoadFloat64):
out-of-range offsets divert to OutOfLineLoadNAN64. -/
def checkedLoadFloat64 (base : Int) (off len : Nat) : DoubleVal :=
  if len % 2 ^ 32 ≤ off % 2 ^ 32 then DoubleVal.qnan64
  else DoubleVal.read (base + sext32 off)

/-- ASSEMBLE_CHECKED_STORE_INTEGER / _FLOAT32 / _DOUBLE share this skeleton:
lgfr, unsigned 32-bit compare against the bound, bge over the store
(leaving memory untouched), otherwise the store writes the value at base
plus the sign-extended offset. -/
def checkedStore {α : Type} (m : Int → α) (base : Int) (off len : Nat)
    (v : α) : Int → α :=
  if len % 2 ^ 32 ≤ off % 2 ^ 32 then m
  else fun x => if x = base + sext32 off then v else m x

/-- Unchecked load (ASSEMBLE_LOAD_INTEGER with an MRR operand): the machine
adds the full base and offset register contents; the offset register holds
the 32-bit offset zero-extended. -/
def uncheckedLoadInt (mem : Mem) (base : Int) (off : Nat) : Nat :=
  mem (base + (off : Int))

/-- Unchecked float load (ASSEMBLE_LOAD_FLOAT with an MRR operand). -/
def uncheckedLoadFloat (base : Int) (off : Nat) : DoubleVal :=
  DoubleVal.read (base + (off : Int))

/-- Unchecked store (ASSEMBLE_STORE_INTEGER / _FLOAT32 / _DOUBLE with an MRR
operand). -/
def uncheckedStore {α : Type} (m : Int → α) (base : Int) (off : Nat)
    (v : α) : Int → α :=
  fun x => if x = base + (off : Int) then v else m x

/- ---------------------------------------------------------------------------
C3: AssembleArchTableSwitch and AssembleJumpTable.  The input register holds
an unsigned 64-bit value; case_count is the number of table entries.  The
emitted sequence is CmpLogicalP(input, case_count); bge(default);
larl(scratch, table); ShiftLeftP(r1, input, 3); LoadP(scratch, table + r1);
Jump(scratch).  AssembleJumpTable emits the case labels in index order, so
the 8-byte entry at byte offset k of the table is the label at index k / 8.
--------------------------------------------------------------------------- -/

/-- Reading the jump table emitted by AssembleJumpTable at a byte offset:
entry number byteOff / 8 (entries are pointer-sized, in index order). -/
def jumpTableRead (targets : List Nat) (dflt : Nat) (byteOff : Nat) : Nat :=
  targets.getD (byteOff / 8) dflt

/-- AssembleArchTableSwitch: the label control transfers to, as a function of
the unsigned 64-bit input value.  The unsigned compare against case_count
routes all not-less values to the default label; otherwise the indexed load
through the jump table picks the entry at byte offset input * 8 (the 64-bit
shift wraps modulo 2 to the 64). -/
def assembleArchTableSwitchDest (targets : List Nat) (dflt : Nat)
    (input : Nat) : Nat :=
  if targets.length ≤ input then dflt
  else jumpTableRead targets dflt (input * 8 % 2 ^ 64)

/-- Signed reading of an unsigned 64-bit register value. -/
def toSigned64 (v : Nat) : Int :=
  if v % 2 ^ 64 < 2 ^ 63 then ((v % 2 ^ 64 : Nat) : Int)
  else ((v % 2 ^ 64 : Nat) : Int) - 2 ^ 64

/- ---------------------------------------------------------------------------
Condition codes and conditions (C4, C6, C9).  The s390 condition register
after a compare holds one of four states: equal, low, high, or (for floating
point) unordered.  A branch condition is one of the six mnemonics the code
generator uses; its mask selects which states take the branch.
--------------------------------------------------------------------------- -/

/-- Machine condition-code state after a compare or test. -/
inductive CC where
  | ccEq : CC
  | ccLt : CC
  | ccGt : CC
  | ccUno : CC
deriving DecidableEq

/-- Branch condition mnemonics used by the code generator. -/
inductive Cond where
  | eq : Cond
  | ne : Cond
  | lt : Cond
  | ge : Cond
  | le : Cond
  | gt : Cond
deriving DecidableEq

/-- Modelled from the spec: the target's branch-on-condition mask semantics
(the assembler and its condition constants are outside the sources under
study).  eq takes the branch on the equal state only, lt on low only, gt on
high only, le on equal or low, ge on equal or high; ne is the complement
mask, which on this target also takes the branch on the unordered state. -/
def condTaken : Cond → CC → Bool
  | Cond.eq, CC.ccEq => true
  | Cond.eq, _ => false
  | Cond.ne, CC.ccEq => false
  | Cond.ne, _ => true
  | Cond.lt, CC.ccLt => true
  | Cond.lt, _ => false
  | Cond.le, CC.ccLt => true
  | Cond.le, CC.ccEq => true
  | Cond.le, _ => false
  | Cond.gt, CC.ccGt => true
  | Cond.gt, _ => false
  | Cond.ge, CC.ccGt => true
  | Cond.ge, CC.ccEq => true
  | Cond.ge, _ => false

/-- Modelled from the spec: NegateCondition of the assembler swaps each
mnemonic with its complement. -/
def NegateCondition : Cond → Cond
  | Cond.eq => Cond.ne
  | Cond.ne => Cond.eq
  | Cond.lt => Cond.ge
  | Cond.ge => Cond.lt
  | Cond.gt => Cond.le
  | Cond.le => Cond.gt

/-- Abstract comparison outcomes attached to instructions (the
flags_condition field). -/
inductive FlagsCondition where
  | kEqual : FlagsCondition
  | kNotEqual : FlagsCondition
  | kSignedLessThan : FlagsCondition
  | kSignedGreaterThanOrEqual : FlagsCondition
  | kSignedLessThanOrEqual : FlagsCondition
  | kSignedGreaterThan : FlagsCondition
  | kUnsignedLessThan : FlagsCondition
  | kUnsignedGreaterThanOrEqual : FlagsCondition
  | kUnsignedLessThanOrEqual : FlagsCondition
  | kUnsignedGreaterThan : FlagsCondition
  | kOverflow : FlagsCondition
  | kNotOverflow : FlagsCondition
deriving DecidableEq

/-- The architecture opcodes the studied claims dispatch on. -/
inductive ArchOpcode where
  | kS390_Add : ArchOpcode
  | kS390_Sub : ArchOpcode
  | kS390_AddWithOverflow32 : ArchOpcode
  | kS390_SubWithOverflow32 : ArchOpcode
  | kS390_Cmp32 : ArchOpcode
  | kS390_CmpDouble : ArchOpcode
deriving DecidableEq

/-- FlagsConditionToCondition of the source (64-bit configuration): the
sixteen comparison outcomes map to the six branch mnemonics independently of
the producing opcode; the overflow outcomes depend on which arithmetic
opcode produced the flags, and fall through to UNREACHABLE (modelled as
none) for any other opcode. -/
def FlagsConditionToCondition (condition : FlagsCondition) (op : ArchOpcode) :
    Option Cond :=
  match condition with
  | FlagsCondition.kEqual => some Cond.eq
  | FlagsCondition.kNotEqual => some Cond.ne
  | FlagsCondition.kSignedLessThan => some Cond.lt
  | FlagsCondition.kUnsignedLessThan => some Cond.lt
  | FlagsCondition.kSignedGreaterThanOrEqual => some Cond.ge
  | FlagsCondition.kUnsignedGreaterThanOrEqual => some Cond.ge
  | FlagsCondition.kSignedLessThanOrEqual => some Cond.le
  | FlagsCondition.kUnsignedLessThanOrEqual => some Cond.le
  | FlagsCondition.kSignedGreaterThan => some Cond.gt
  | FlagsCondition.kUnsignedGreaterThan => some Cond.gt
  | FlagsCondition.kOverflow =>
      match op with
      | ArchOpcode.kS390_Add => some Cond.lt
      | ArchOpcode.kS390_Sub => some Cond.lt
      | ArchOpcode.kS390_AddWithOverflow32 => some Cond.ne
      | ArchOpcode.kS390_SubWithOverflow32 => some Cond.ne
      | _ => none
  | FlagsCondition.kNotOverflow =>
      match op with
      | ArchOpcode.kS390_Add => some Cond.ge
      | ArchOpcode.kS390_Sub => some Cond.ge
      | ArchOpcode.kS390_AddWithOverflow32 => some Cond.eq
      | ArchOpcode.kS390_SubWithOverflow32 => some Cond.eq
      | _ => none

/-- Condition code produced by comparing two integers. -/
def intCmpCC (a b : Int) : CC :=
  if a < b then CC.ccLt else if a = b then CC.ccEq else CC.ccGt

/-- Double operands for kS390_CmpDouble: none stands for a NaN operand. -/
abbrev Dbl := Option Int

/-- Condition code set by cdbr: ordered compare of the two values, or the
unordered state when either operand is NaN. -/
def cdbrCC : Dbl → Dbl → CC
  | some a, some b => intCmpCC a b
  | _, _ => CC.ccUno

/-- AssembleArchBranch: which of the two branch targets execution reaches,
as a function of the producing opcode, the flags condition, and the machine
condition code.  Mirrors the emitted sequence: for kS390_CmpDouble a
bunordered branch to the false label precedes the conditional branch when
the condition is le, eq or lt, and a bunordered branch to the true label
when it is gt, ne or ge; then b(cond) branches to the true label, and the
fallthrough (or trailing unconditional branch) reaches the false label.
some true means the true label is reached, some false the false label; none
is the UNREACHABLE case of the condition translation. -/
def assembleArchBranchDest (op : ArchOpcode) (fc : FlagsCondition) (cc : CC) :
    Option Bool :=
  match FlagsConditionToCondition fc op with
  | none => none
  | some cond =>
    if op = ArchOpcode.kS390_CmpDouble then
      if (cond = Cond.le ∨ cond = Cond.eq ∨ cond = Cond.lt) ∧ cc = CC.ccUno then
        some false
      else if (cond = Cond.gt ∨ cond = Cond.ne ∨ cond = Cond.ge) ∧ cc = CC.ccUno then
        some true
      else some (condTaken cond cc)
    else some (condTaken cond cc)

/-- AssembleArchBoolean: the 0 or 1 value materialized into the output
register.  Mirrors the emitted branches: for ne, ge, gt the register is
first loaded with 1 and replaced by 0 when the condition does not hold (with
a preceding bunordered branch keeping the 1 when checking a double compare);
for eq, lt, le the register is first loaded with 0 and replaced by 1 unless
the negated condition holds (with a preceding bunordered branch keeping the
0 for a double compare). -/
def assembleArchBooleanVal (op : ArchOpcode) (fc : FlagsCondition) (cc : CC) :
    Option Nat :=
  match FlagsConditionToCondition fc op with
  | none => none
  | some cond =>
    let checkUnordered := op = ArchOpcode.kS390_CmpDouble
    match cond with
    | Cond.ne | Cond.ge | Cond.gt =>
        some (if checkUnordered then
                if cc = CC.ccUno then 1
                else if condTaken cond cc then 1 else 0
              else if condTaken cond cc then 1 else 0)
    | Cond.eq | Cond.lt | Cond.le =>
        some (if checkUnordered then
                if cc = CC.ccUno then 0
                else if condTaken (NegateCondition cond) cc then 0 else 1
              else if condTaken (NegateCondition cond) cc then 0 else 1)

/- ---------------------------------------------------------------------------
C6: kS390_AddWithOverflow32 (ASSEMBLE_ADD_WITH_OVERFLOW32 in the 64-bit
configuration): a full-width AddP followed by TestIfInt32 on the output.
--------------------------------------------------------------------------- -/

/-- Sign extension of the low 32 bits of a value to a 64-bit pattern (the
lgfr step of TestIfInt32). -/
def sext32to64 (v : Nat) : Nat :=
  if v % 2 ^ 32 < 2 ^ 31 then v % 2 ^ 32
  else v % 2 ^ 32 + (2 ^ 64 - 2 ^ 32)

/-- Condition code of a signed 64-bit register compare (cgr). -/
def cmpS64CC (a b : Nat) : CC := intCmpCC (toSigned64 a) (toSigned64 b)

/-- Modelled from the spec: TestIfInt32(value, scratch) is the explicit
widen-and-compare overflow check of the macro assembler: it sign-extends the
low 32 bits of the value into the scratch register and compares, signed,
against the full value; the condition code is equal exactly when the value
fits in 32 signed bits. -/
def TestIfInt32CC (v : Nat) : CC := cmpS64CC (sext32to64 v) (v % 2 ^ 64)

/-- ASSEMBLE_ADD_WITH_OVERFLOW32 (64-bit configuration): AddP computes the
full-width sum, then TestIfInt32 sets the condition code from the output
register.  Returns the output register value and the condition code. -/
def assembleAddWithOverflow32 (a b : Nat) : Nat × CC :=
  let r := (a + b) % 2 ^ 64
  (r, TestIfInt32CC r)

/- ---------------------------------------------------------------------------
C9: ASSEMBLE_COMPARE(Cmp32, CmpLogical32) and
S390OperandConverter::CompareLogical.
--------------------------------------------------------------------------- -/

/-- Signed reading of an unsigned 32-bit register value. -/
def toSigned32 (v : Nat) : Int :=
  if v % 2 ^ 32 < 2 ^ 31 then ((v % 2 ^ 32 : Nat) : Int)
  else ((v % 2 ^ 32 : Nat) : Int) - 2 ^ 32

/-- S390OperandConverter::CompareLogical: true exactly for the four unsigned
comparison outcomes. -/
def CompareLogical (condition : FlagsCondition) : Bool :=
  match condition with
  | FlagsCondition.kUnsignedLessThan => true
  | FlagsCondition.kUnsignedGreaterThanOrEqual => true
  | FlagsCondition.kUnsignedLessThanOrEqual => true
  | FlagsCondition.kUnsignedGreaterThan => true
  | _ => false

/-- Condition code of the arithmetic (signed) 32-bit compare Cmp32. -/
def cmp32CC (a b : Nat) : CC := intCmpCC (toSigned32 a) (toSigned32 b)

/-- Condition code of the logical (unsigned) 32-bit compare CmpLogical32. -/
def cmpLogical32CC (a b : Nat) : CC :=
  intCmpCC ((a % 2 ^ 32 : Nat) : Int) ((b % 2 ^ 32 : Nat) : Int)

/-- ASSEMBLE_COMPARE(Cmp32, CmpLogical32): the emitted compare instruction is
the logical one when CompareLogical holds for the flags condition and the
arithmetic one otherwise. -/
def assembleCompare32CC (condition : FlagsCondition) (a b : Nat) : CC :=
  if CompareLogical condition then cmpLogical32CC a b else cmp32CC a b

/-- A compare-and-branch pair for kS390_Cmp32: the branch is taken according
to the condition FlagsConditionToCondition selects, evaluated on the
condition code the emitted compare instruction produces. -/
def compareBranchTaken (condition : FlagsCondition) (a b : Nat) : Option Bool :=
  (FlagsConditionToCondition condition ArchOpcode.kS390_Cmp32).map
    (fun c => condTaken c (assembleCompare32CC condition a b))

/- ---------------------------------------------------------------------------
C7: 32-bit shift opcodes with a register shift count (kS390_ShiftLeft32,
kS390_ShiftRight32, kS390_ShiftRightAlg32).  Register values are the 32-bit
contents; the shift instructions take their amount from the rightmost six
bits of the count, i.e. the count modulo the 64-bit register width.
--------------------------------------------------------------------------- -/

/-- The nonnegative 32-bit pattern of an integer. -/
def toUnsigned32 (x : Int) : Nat := (x % 2 ^ 32).toNat

/-- Modelled from the spec: the 32-bit logical left shift instruction; the
effective amount is the count taken modulo the register width (the
rightmost six bits of the count). -/
def sll32 (v amt : Nat) : Nat := (v <<< (amt % 64)) % 2 ^ 32

/-- Modelled from the spec: the 32-bit logical right shift instruction. -/
def srl32 (v amt : Nat) : Nat := (v % 2 ^ 32) >>> (amt % 64)

/-- Modelled from the spec: the 32-bit arithmetic right shift instruction
(sign-propagating, i.e. flooring division of the signed value). -/
def sra32 (v amt : Nat) : Nat :=
  toUnsigned32 (Int.ediv (toSigned32 v) (2 ^ (amt % 64)))

/-- Modelled from the spec: the macro assembler ShiftLeft(dst, src, count)
with all-register operands expands to the two-address form, first moving the
source into the destination and then shifting by the count register, which
is therefore read after the destination was overwritten (the single-register
form shifts in place). -/
def ShiftLeftMacro (dst src cnt : Reg) (f : RegFile Nat) : RegFile Nat :=
  if dst = src then setReg f dst (sll32 (f dst) (f cnt))
  else
    let f1 := setReg f dst (f src)
    setReg f1 dst (sll32 (f1 dst) (f1 cnt))

/-- Modelled from the spec: ShiftRight(dst, src, count), logical. -/
def ShiftRightMacro (dst src cnt : Reg) (f : RegFile Nat) : RegFile Nat :=
  if dst = src then setReg f dst (srl32 (f dst) (f cnt))
  else
    let f1 := setReg f dst (f src)
    setReg f1 dst (srl32 (f1 dst) (f1 cnt))

/-- Modelled from the spec: ShiftRightArith(dst, src, count). -/
def ShiftRightArithMacro (dst src cnt : Reg) (f : RegFile Nat) : RegFile Nat :=
  if dst = src then setReg f dst (sra32 (f dst) (f cnt))
  else
    let f1 := setReg f dst (f src)
    setReg f1 dst (sra32 (f1 dst) (f1 cnt))

/-- Case kS390_ShiftLeft32 of AssembleArchInstruction with a register count:
when the output register aliases the count register, LoadRR first copies the
count into kScratchReg and the shift uses the scratch; otherwise the macro
shift is emitted directly on the three operands. -/
def emitShiftLeft32 (scr out in0 cnt : Reg) (f : RegFile Nat) : RegFile Nat :=
  if out = cnt then ShiftLeftMacro out in0 scr (setReg f scr (f cnt))
  else ShiftLeftMacro out in0 cnt f

/-- Case kS390_ShiftRight32 of AssembleArchInstruction with a register
count. -/
def emitShiftRight32 (scr out in0 cnt : Reg) (f : RegFile Nat) : RegFile Nat :=
  if out = cnt then ShiftRightMacro out in0 scr (setReg f scr (f cnt))
  else ShiftRightMacro out in0 cnt f

/-- Case kS390_ShiftRightAlg32 of AssembleArchInstruction with a register
count. -/
def emitShiftRightAlg32 (scr out in0 cnt : Reg) (f : RegFile Nat) :
    RegFile Nat :=
  if out = cnt then ShiftRightArithMacro out in0 scr (setReg f scr (f cnt))
  else ShiftRightArithMacro out in0 cnt f

/- ---------------------------------------------------------------------------
C8: EnsureSpaceForLazyDeopt.  patch is Deoptimizer patch_size(), last the
recorded last_lazy_deopt_pc_, cur the pc_offset at entry.
--------------------------------------------------------------------------- -/

/-- The padding byte count EnsureSpaceForLazyDeopt computes: the shortfall
of the current pc against the last lazy-deopt pc plus the patch size, zero
when there is no shortfall. -/
def lazyDeoptPadding (patch last cur : Nat) : Nat :=
  if cur < last + patch then last + patch - cur else 0

/-- Number of 2-byte nops the padding loop emits: the loop decrements the
remaining padding by 2 per nop until it is no longer positive. -/
def nopsEmitted (patch last cur : Nat) : Nat :=
  (lazyDeoptPadding patch last cur + 1) / 2

/-- The pc_offset after EnsureSpaceForLazyDeopt returns: unchanged when
space assurance is disabled, otherwise advanced by two bytes per emitted
nop. -/
def pcAfterEnsureSpace (enabled : Bool) (patch last cur : Nat) : Nat :=
  if enabled then cur + 2 * nopsEmitted patch last cur else cur

/- ---------------------------------------------------------------------------
C10: ASSEMBLE_SUB_WITH_OVERFLOW with an immediate second operand.  Values
are signed 32-bit integers.
--------------------------------------------------------------------------- -/

/-- Reduction of an integer into the signed 32-bit range (two's-complement
wrap-around). -/
def wrap32 (x : Int) : Int := (x + 2 ^ 31) % 2 ^ 32 - 2 ^ 31

/-- The C++ negation of a 32-bit immediate, as in the emitted
AddAndCheckForOverflow(out, in0, -InputInt32(1), ...): int32 negation wraps,
so the negation of the minimal value is itself. -/
def negInt32 (imm : Int) : Int := wrap32 (-imm)

/-- Modelled from the spec: AddAndCheckForOverflow of the macro assembler
computes the 32-bit wrapped sum and an overflow condition that is true
exactly when the mathematical sum leaves the signed 32-bit range. -/
def AddAndCheckForOverflow (a b : Int) : Int × Bool :=
  (wrap32 (a + b), decide (a + b < -(2 ^ 31) ∨ 2 ^ 31 ≤ a + b))

/-- ASSEMBLE_SUB_WITH_OVERFLOW, immediate path: the emitted sequence is
AddAndCheckForOverflow of input 0 and the negated immediate. -/
def assembleSubWithOverflowImm (a imm : Int) : Int × Bool :=
  AddAndCheckForOverflow a (negInt32 imm)

/-- True 32-bit subtract-with-overflow semantics: the wrapped difference
and an overflow condition true exactly when the mathematical difference
leaves the signed 32-bit range. -/
def subWithOverflow32 (a b : Int) : Int × Bool :=
  (wrap32 (a - b), decide (a - b < -(2 ^ 31) ∨ 2 ^ 31 ≤ a - b))

/- ---------------------------------------------------------------------------
C5: AssemblePrologue and AssembleReturn.  Machine state for the frame
round-trip: a stack pointer (in pointer-sized slots, growing downward), the
general register file (fp is register 11, the return-address register r14 is
register 14, the context register cp is register 13), the double register
file, and slot-granular stack memory.  The 64-bit configuration is used, in
which a double occupies one slot.
--------------------------------------------------------------------------- -/

/-- Machine state for the prologue and epilogue sequences. -/
structure MState where
  sp : Int
  regs : Nat → Int
  fregs : Nat → Int
  mem : Int → Int

/-- Frame-pointer register index (r11). -/
def fpIdx : Nat := 11

/-- Return-address register index (r14). -/
def r14Idx : Nat := 14

/-- Context register index (r13, cp). -/
def cpIdx : Nat := 13

/-- Push one value: decrement the stack pointer by one slot and store. -/
def pushVal (s : MState) (v : Int) : MState :=
  { s with sp := s.sp - 1,
           mem := fun a => if a = s.sp - 1 then v else s.mem a }

/-- Push a general register. -/
def pushReg (s : MState) (r : Nat) : MState := pushVal s (s.regs r)

/-- Push a double register (one slot in the 64-bit configuration). -/
def pushFReg (s : MState) (d : Nat) : MState := pushVal s (s.fregs d)

/-- Pop into a general register. -/
def popReg (s : MState) (r : Nat) : MState :=
  { s with sp := s.sp + 1,
           regs := fun x => if x = r then s.mem s.sp else s.regs x }

/-- Pop into a double register. -/
def popFReg (s : MState) (d : Nat) : MState :=
  { s with sp := s.sp + 1,
           fregs := fun x => if x = d then s.mem s.sp else s.fregs x }

/-- Modelled from the spec: MultiPush of the macro assembler saves the given
callee-saved general registers in a fixed documented order, the head of the
list stored at the highest address. -/
def multiPush : List Nat → MState → MState
  | [], s => s
  | r :: rest, s => multiPush rest (pushReg s r)

/-- Modelled from the spec: MultiPop restores the registers in the exact
inverse of the saving order (deepest-saved register popped first). -/
def multiPop : List Nat → MState → MState
  | [], s => s
  | r :: rest, s => popReg (multiPop rest s) r

/-- Modelled from the spec: MultiPushDoubles, same order discipline as
MultiPush. -/
def multiPushDoubles : List Nat → MState → MState
  | [], s => s
  | d :: rest, s => multiPushDoubles rest (pushFReg s d)

/-- Modelled from the spec: MultiPopDoubles, exact inverse of
MultiPushDoubles. -/
def multiPopDoubles : List Nat → MState → MState
  | [], s => s
  | d :: rest, s => popFReg (multiPopDoubles rest s) d

/-- lay(sp, -n * kPointerSize): allocate n spill slots. -/
def allocSlots (n : Nat) (s : MState) : MState := { s with sp := s.sp - n }

/-- LoadRR(fp, sp). -/
def setFP (s : MState) : MState :=
  { s with regs := fun x => if x = fpIdx then s.sp else s.regs x }

/-- The four prologue shapes AssemblePrologue selects from the call
descriptor. -/
inductive FrameKind where
  | cfun : FrameKind
  | js : FrameKind
  | stub : FrameKind
  | elided : FrameKind
deriving DecidableEq

/-- The frame-construction part of AssemblePrologue.  A C-function frame is
Push(r14, fp); LoadRR(fp, sp).  Modelled from the spec for the managed
(Prologue) and stub (StubPrologue) shapes, which are macro-assembler
routines: the managed frame additionally pushes the context register and the
function register (register 3 here), the stub frame an immediate frame-type
marker; both leave fp pointing at the saved caller fp as the C frame does.
The elided shape emits nothing. -/
def prologueShape : FrameKind → MState → MState
  | FrameKind.cfun, s => setFP (pushReg (pushReg s r14Idx) fpIdx)
  | FrameKind.js, s =>
      pushReg (pushReg (setFP (pushReg (pushReg s r14Idx) fpIdx)) cpIdx) 3
  | FrameKind.stub, s => pushVal (setFP (pushReg (pushReg s r14Idx) fpIdx)) 0
  | FrameKind.elided, s => s

/-- Number of slots the frame-construction part of each prologue shape
occupies. -/
def shapeSlots : FrameKind → Nat
  | FrameKind.cfun => 2
  | FrameKind.js => 4
  | FrameKind.stub => 3
  | FrameKind.elided => 0

/-- AssemblePrologue: build the frame for the descriptor's kind, allocate
the spill slots (lay), save the callee-saved double registers
(MultiPushDoubles), then the callee-saved general registers (MultiPush) --
doubles before generals. -/
def AssemblePrologue (k : FrameKind) (shrink : Nat) (dsaves saves : List Nat)
    (s : MState) : MState :=
  multiPush saves (multiPushDoubles dsaves (allocSlots shrink (prologueShape k s)))

/-- Modelled from the spec: LeaveFrame(type, stack_adjustment) of the macro
assembler restores the caller's frame pointer and return address from the
frame (the saved fp cell at fp, the saved pc cell one slot above) and pops
the whole frame together with the callee's stack parameters. -/
def leaveFrame (popCount : Nat) (s : MState) : MState :=
  let fpv := s.regs fpIdx
  { s with sp := fpv + 2 + popCount,
           regs := fun x =>
             if x = fpIdx then s.mem fpv
             else if x = r14Idx then s.mem (fpv + 1)
             else s.regs x }

/-- AssembleReturn: restore the callee-saved general registers (MultiPop),
then the callee-saved double registers (MultiPopDoubles) -- generals before
doubles, the exact inverse of the prologue -- then tear the frame down:
LeaveFrame for a C-function frame or any frame-needing descriptor, or
Drop(pop_count) when the frame was elided. -/
def AssembleReturn (k : FrameKind) (popCount : Nat) (dsaves saves : List Nat)
    (s : MState) : MState :=
  let s1 := multiPopDoubles dsaves (multiPop saves s)
  match k with
  | FrameKind.elided => { s1 with sp := s1.sp + popCount }
  | _ => leaveFrame popCount s1

end S390

namespace S390

theorem setReg_same {α : Type} (f : RegFile α) (r : Reg) (v : α) :
    setReg f r v r = v := by
  simp [setReg]

theorem setReg_other {α : Type} (f : RegFile α) (r x : Reg) (v : α)
    (h : x ≠ r) : setReg f r v x = f x := by
  simp [setReg, h]

/-- C1 counterexample: the claim quantifies over every combination of
aliasing between the output register and the input registers.  When the
output register of kS390_AndComplement aliases both inputs (all three
operands are the same register, here register 0 holding the value 0), the
emitted sequence NotP(in1); AndP(out, in0, in1) complements the shared
register in place and then conjoins the complemented value with itself,
producing the complement of the original value instead of the conjunction of
the original value with its complement (which is 0).  So the claimed equality
fails at this concrete aliasing combination and input. -/
theorem C1_counterexample :
    emitAndComplement 0 0 0 (fun _ => 0) 0 ≠ Nat.land 0 (notP 0) := by
  decide

/-- C1 (amended): for the binary floating-point opcodes kS390_AddDouble,
kS390_SubDouble, kS390_MulDouble, kS390_DivDouble and for every combination
of aliasing between the output register and the input registers, the value
computed by the emitted instruction sequence equals the operation applied to
the pre-clobber operand values, with the intended operand order preserved for
the non-commutative subtraction and division (for addition and
multiplication the target operation is commutative, which the single-operand
mutating form relies on).  For kS390_AndComplement and kS390_OrComplement the
same holds for every aliasing combination in which the two input registers do
not alias each other; when they do, the in-place NotP clobbers input 0 as
well and the computed value is wrong (see the counterexample).  The scratch
double register is never allocator-assigned, hence distinct from all
operands. -/
theorem C1_binop_aliasing {α : Type} (dadd dsub dmul ddiv : α → α → α)
    (scr out in0 in1 : Reg) (f : RegFile α) (g : RegFile Nat)
    (hcadd : ∀ a b, dadd a b = dadd b a)
    (hcmul : ∀ a b, dmul a b = dmul b a)
    (hso : out ≠ scr) (hs0 : in0 ≠ scr) (hs1 : in1 ≠ scr) :
    emitAddDouble dadd out in0 in1 f out = dadd (f in0) (f in1) ∧
    emitSubDouble dsub scr out in0 in1 f out = dsub (f in0) (f in1) ∧
    emitMulDouble dmul out in0 in1 f out = dmul (f in0) (f in1) ∧
    emitDivDouble ddiv scr out in0 in1 f out = ddiv (f in0) (f in1) ∧
    (in0 ≠ in1 →
      emitAndComplement out in0 in1 g out = Nat.land (g in0) (notP (g in1))) ∧
    (in0 ≠ in1 →
      emitOrComplement out in0 in1 g out = Nat.lor (g in0) (notP (g in1))) := by
  refine ⟨?_, ?_, ?_, ?_, ?_, ?_⟩
  · unfold emitAddDouble
    by_cases h1 : out = in1
    · subst h1; simp [setReg, hcadd (f out) (f in0)]
    · by_cases h0 : out = in0
      · subst h0; simp [setReg, h1, Ne.symm h1]
      · simp [setReg, h1, h0, Ne.symm h1]
  · unfold emitSubDouble
    by_cases h1 : out = in1
    · subst h1
      simp [setReg, hso, hs0, hs1, Ne.symm hs1, Ne.symm hso]
    · by_cases h0 : out = in0
      · subst h0; simp [setReg, h1, Ne.symm h1]
      · simp [setReg, h1, h0, Ne.symm h1]
  · unfold emitMulDouble
    by_cases h1 : out = in1
    · subst h1; simp [setReg, hcmul (f out) (f in0)]
    · by_cases h0 : out = in0
      · subst h0; simp [setReg, h1, Ne.symm h1]
      · simp [setReg, h1, h0, Ne.symm h1]
  · unfold emitDivDouble
    by_cases h1 : out = in1
    · subst h1
      simp [setReg, hso, hs0, hs1, Ne.symm hs1, Ne.symm hso]
    · by_cases h0 : out = in0
      · subst h0; simp [setReg, h1, Ne.symm h1]
      · simp [setReg, h1, h0, Ne.symm h1]
  · intro hne
    unfold emitAndComplement
    simp [setReg, hne, Ne.symm hne]
  · intro hne
    unfold emitOrComplement
    simp [setReg, hne, Ne.symm hne]

/-- C1 witness: the amended theorem applied at a concrete instantiation
(doubles realized as integers, distinct registers 0, 1, 2 and scratch 9). -/
theorem C1_binop_aliasing_witness :
    emitSubDouble (fun a b : Int => a - b) 9 0 1 2 (fun x => (x : Int)) 0 =
      (1 : Int) - 2 ∧
    emitAndComplement 0 1 2 (fun x => x) 0 = Nat.land 1 (notP 2) := by
  have h := C1_binop_aliasing (fun a b : Int => a + b) (fun a b : Int => a - b)
    (fun a b : Int => a * b) (fun a b : Int => a / b) 9 0 1 2
    (fun x => (x : Int)) (fun x => x)
    (fun a b => Int.add_comm a b) (fun a b => Int.mul_comm a b)
    (by decide) (by decide) (by decide)
  exact ⟨h.2.1, h.2.2.2.2.1 (by decide)⟩

/-- C2 counterexample: the claim requires every checked access at an offset
strictly below the bound to behave like the unchecked access.  At offset
2 to the 31 with bound 2 to the 31 plus 1 the offset passes the unsigned
bounds check, but the emitted lgfr sign-extends the 32-bit offset, so the
checked load reads base minus 2 to the 31 while the unchecked load reads
base plus 2 to the 31: on a memory holding 7 at the positive address and 0
elsewhere the two results differ. -/
theorem C2_counterexample :
    checkedLoadInt (fun a => if a = 2 ^ 31 then 7 else 0) 0 (2 ^ 31)
        (2 ^ 31 + 1) ≠
      uncheckedLoadInt (fun a => if a = 2 ^ 31 then 7 else 0) 0 (2 ^ 31) := by
  decide

/-- C2 (amended): for every bounds-checked memory access, whenever the
32-bit offset is unsigned-greater-than-or-equal to the length bound
(including the boundary case of exact equality), a checked integer load
places zero in the output, a checked float load places the quiet NaN of the
appropriate width, and a checked store leaves the target memory unchanged;
whenever the offset is strictly less than the bound AND below 2 to the 31
(so that the in-place sign extension of the offset register preserves its
value), the behavior equals the corresponding unchecked load or store.
Offsets in the range from 2 to the 31 up to the bound are accessed at a
sign-extended negative displacement, diverging from the unchecked variant
(see the counterexample). -/
theorem C2_checked_access {α : Type} (mem : Mem) (m : Int → α) (base : Int)
    (off len : Nat) (v : α) (hoff : off < 2 ^ 32) (hlen : len < 2 ^ 32) :
    (len ≤ off → checkedLoadInt mem base off len = 0) ∧
    (len ≤ off → checkedLoadFloat32 base off len = DoubleVal.qnan32) ∧
    (len ≤ off → checkedLoadFloat64 base off len = DoubleVal.qnan64) ∧
    (len ≤ off → checkedStore m base off len v = m) ∧
    checkedStore m base off off v = m ∧
    (off < len → off < 2 ^ 31 →
      checkedLoadInt mem base off len = uncheckedLoadInt mem base off ∧
      checkedLoadFloat32 base off len = uncheckedLoadFloat base off ∧
      checkedLoadFloat64 base off len = uncheckedLoadFloat base off ∧
      checkedStore m base off len v = uncheckedStore m base off v) := by
  have hoffm : off % 2 ^ 32 = off := Nat.mod_eq_of_lt hoff
  have hlenm : len % 2 ^ 32 = len := Nat.mod_eq_of_lt hlen
  refine ⟨?_, ?_, ?_, ?_, ?_, ?_⟩
  · intro h
    unfold checkedLoadInt
    rw [hoffm, hlenm]
    simp [h]
  · intro h
    unfold checkedLoadFloat32
    rw [hoffm, hlenm]
    simp [h]
  · intro h
    unfold checkedLoadFloat64
    rw [hoffm, hlenm]
    simp [h]
  · intro h
    unfold checkedStore
    rw [hoffm, hlenm]
    simp [h]
  · unfold checkedStore
    rw [hoffm]
    simp
  · intro h1 h2
    have hs : sext32 off = (off : Int) := by
      unfold sext32
      rw [hoffm, if_pos (by omega : off < 2 ^ 31)]
    refine ⟨?_, ?_, ?_, ?_⟩
    · unfold checkedLoadInt uncheckedLoadInt
      rw [if_neg (show ¬ len % 2 ^ 32 ≤ off % 2 ^ 32 by omega), hs]
    · unfold checkedLoadFloat32 uncheckedLoadFloat
      rw [if_neg (show ¬ len % 2 ^ 32 ≤ off % 2 ^ 32 by omega), hs]
    · unfold checkedLoadFloat64 uncheckedLoadFloat
      rw [if_neg (show ¬ len % 2 ^ 32 ≤ off % 2 ^ 32 by omega), hs]
    · unfold checkedStore uncheckedStore
      rw [if_neg (show ¬ len % 2 ^ 32 ≤ off % 2 ^ 32 by omega), hs]

/-- C2 witness: the theorem applied at concrete inputs, covering both the
boundary case (offset equal to the bound) and an in-range access. -/
theorem C2_checked_access_witness :
    checkedLoadInt (fun _ => 3) 0 5 5 = 0 ∧
    checkedStore (fun _ => (4 : Nat)) 0 5 5 9 = (fun _ => 4) ∧
    checkedLoadInt (fun _ => 3) 0 2 5 = uncheckedLoadInt (fun _ => 3) 0 2 := by
  have h1 := C2_checked_access (fun _ => 3) (fun _ => (4 : Nat)) 0 5 5 9
    (by decide) (by decide)
  have h2 := C2_checked_access (fun _ => 3) (fun _ => (4 : Nat)) 0 2 5 9
    (by decide) (by decide)
  exact ⟨h1.1 (by decide), h1.2.2.2.2.1, (h2.2.2.2.2.2 (by decide) (by decide)).1⟩

/-- C3: for a table switch with N cases assembled by AssembleArchTableSwitch,
every input in the interval from 0 to N transfers control exactly to the
label recorded at that index of the jump table, and every input
unsigned-greater-than-or-equal to N -- in particular every 64-bit value that
is negative when read as a signed integer -- transfers control to the default
target without consulting the jump table.  The case count is an int32, hence
at most 2 to the 31. -/
theorem C3_table_switch (targets : List Nat) (dflt input : Nat)
    (hN : targets.length ≤ 2 ^ 31) (hin : input < 2 ^ 64) :
    (∀ h : input < targets.length,
      assembleArchTableSwitchDest targets dflt input = targets.get ⟨input, h⟩) ∧
    (targets.length ≤ input →
      assembleArchTableSwitchDest targets dflt input = dflt) ∧
    (toSigned64 input < 0 →
      assembleArchTableSwitchDest targets dflt input = dflt) := by
  refine ⟨?_, ?_, ?_⟩
  · intro h
    unfold assembleArchTableSwitchDest jumpTableRead
    have hlt : ¬ targets.length ≤ input := by omega
    have h8 : input * 8 % 2 ^ 64 = input * 8 := Nat.mod_eq_of_lt (by omega)
    have hq : input * 8 / 8 = input := by omega
    simp only [hlt, if_false, h8, hq]
    exact List.getD_eq_get targets dflt h
  · intro h
    unfold assembleArchTableSwitchDest
    simp [h]
  · intro hneg
    unfold toSigned64 at hneg
    rw [Nat.mod_eq_of_lt hin] at hneg
    have hge : targets.length ≤ input := by
      by_cases hc : input < 2 ^ 63
      · simp [hc] at hneg
        omega
      · omega
    unfold assembleArchTableSwitchDest
    simp [hge]

/-- C3 witness: the theorem applied at a three-entry table, at an in-range
index, an out-of-range index, and an index that is negative as a signed
64-bit integer. -/
theorem C3_table_switch_witness :
    assembleArchTableSwitchDest [10, 20, 30] 99 1 = 20 ∧
    assembleArchTableSwitchDest [10, 20, 30] 99 5 = 99 ∧
    assembleArchTableSwitchDest [10, 20, 30] 99 (2 ^ 63) = 99 := by
  have h1 := C3_table_switch [10, 20, 30] 99 1 (by decide) (by norm_num)
  have h2 := C3_table_switch [10, 20, 30] 99 5 (by decide) (by norm_num)
  have h3 := C3_table_switch [10, 20, 30] 99 (2 ^ 63) (by decide) (by norm_num)
  refine ⟨?_, h2.2.1 (by decide), h3.2.1 (by norm_num)⟩
  rw [h1.1 (by decide)]
  rfl

theorem condTaken_eq_intCmpCC (x y : Int) :
    condTaken Cond.eq (intCmpCC x y) = decide (x = y) := by
  unfold intCmpCC
  split_ifs with h1 h2 <;> simp [condTaken] <;> omega

theorem condTaken_ne_intCmpCC (x y : Int) :
    condTaken Cond.ne (intCmpCC x y) = decide (x ≠ y) := by
  unfold intCmpCC
  split_ifs with h1 h2 <;> simp [condTaken] <;> omega

theorem condTaken_lt_intCmpCC (x y : Int) :
    condTaken Cond.lt (intCmpCC x y) = decide (x < y) := by
  unfold intCmpCC
  split_ifs with h1 h2 <;> simp [condTaken] <;> omega

theorem condTaken_ge_intCmpCC (x y : Int) :
    condTaken Cond.ge (intCmpCC x y) = decide (y ≤ x) := by
  unfold intCmpCC
  split_ifs with h1 h2 <;> simp [condTaken] <;> omega

theorem condTaken_le_intCmpCC (x y : Int) :
    condTaken Cond.le (intCmpCC x y) = decide (x ≤ y) := by
  unfold intCmpCC
  split_ifs with h1 h2 <;> simp [condTaken] <;> omega

theorem condTaken_gt_intCmpCC (x y : Int) :
    condTaken Cond.gt (intCmpCC x y) = decide (y < x) := by
  unfold intCmpCC
  split_ifs with h1 h2 <;> simp [condTaken] <;> omega

/-- C4: for every branch assembled after a double comparison (kS390_CmpDouble)
by AssembleArchBranch, when either comparison operand is NaN the emitted code
transfers control to exactly one documented target: the false target when the
branch condition is less-than, less-than-or-equal or equal, and the true
target when it is greater-than, greater-than-or-equal or not-equal; it never
falls through with the unordered outcome undecided.  In particular a double
compare with a NaN operand and condition less-than always reaches the false
(unordered-routing) target. -/
theorem C4_double_branch_unordered (x y : Dbl) (h : x = none ∨ y = none) :
    assembleArchBranchDest ArchOpcode.kS390_CmpDouble
      FlagsCondition.kSignedLessThan (cdbrCC x y) = some false ∧
    assembleArchBranchDest ArchOpcode.kS390_CmpDouble
      FlagsCondition.kUnsignedLessThan (cdbrCC x y) = some false ∧
    assembleArchBranchDest ArchOpcode.kS390_CmpDouble
      FlagsCondition.kSignedLessThanOrEqual (cdbrCC x y) = some false ∧
    assembleArchBranchDest ArchOpcode.kS390_CmpDouble
      FlagsCondition.kUnsignedLessThanOrEqual (cdbrCC x y) = some false ∧
    assembleArchBranchDest ArchOpcode.kS390_CmpDouble
      FlagsCondition.kEqual (cdbrCC x y) = some false ∧
    assembleArchBranchDest ArchOpcode.kS390_CmpDouble
      FlagsCondition.kSignedGreaterThan (cdbrCC x y) = some true ∧
    assembleArchBranchDest ArchOpcode.kS390_CmpDouble
      FlagsCondition.kUnsignedGreaterThan (cdbrCC x y) = some true ∧
    assembleArchBranchDest ArchOpcode.kS390_CmpDouble
      FlagsCondition.kSignedGreaterThanOrEqual (cdbrCC x y) = some true ∧
    assembleArchBranchDest ArchOpcode.kS390_CmpDouble
      FlagsCondition.kUnsignedGreaterThanOrEqual (cdbrCC x y) = some true ∧
    assembleArchBranchDest ArchOpcode.kS390_CmpDouble
      FlagsCondition.kNotEqual (cdbrCC x y) = some true := by
  have hcc : cdbrCC x y = CC.ccUno := by
    rcases h with h | h
    · subst h; cases y <;> rfl
    · subst h; cases x <;> rfl
  rw [hcc]
  decide

/-- C4 witness: the theorem applied to a NaN left operand. -/
theorem C4_double_branch_unordered_witness :
    assembleArchBranchDest ArchOpcode.kS390_CmpDouble
      FlagsCondition.kSignedLessThan (cdbrCC none (some 0)) = some false :=
  (C4_double_branch_unordered none (some 0) (Or.inl rfl)).1

/-- C6: executing the code emitted for a 32-bit add-with-overflow
(kS390_AddWithOverflow32) on inputs 0x7FFFFFFF and 1 yields 0x80000000 in
the low 32 bits of the output register, the overflow flags-condition selected
by FlagsConditionToCondition for kOverflow (the not-equal condition of the
widen-and-compare test) is true of the resulting condition code, and
materializing that flag with AssembleArchBoolean writes exactly 1 to the
result register. -/
theorem C6_add_overflow_scenario :
    (assembleAddWithOverflow32 0x7FFFFFFF 1).1 % 2 ^ 32 = 0x80000000 ∧
    FlagsConditionToCondition FlagsCondition.kOverflow
      ArchOpcode.kS390_AddWithOverflow32 = some Cond.ne ∧
    condTaken Cond.ne (assembleAddWithOverflow32 0x7FFFFFFF 1).2 = true ∧
    assembleArchBooleanVal ArchOpcode.kS390_AddWithOverflow32
      FlagsCondition.kOverflow (assembleAddWithOverflow32 0x7FFFFFFF 1).2 =
        some 1 := by
  refine ⟨by decide, rfl, by decide, by decide⟩

/-- C7: for every 32-bit shift opcode (kS390_ShiftLeft32, kS390_ShiftRight32,
kS390_ShiftRightAlg32) whose shift count is in a register, the result placed
in the output register is the first input shifted by the count taken modulo
the register width (the count modulo 64 -- shifting a shift instruction's
amount comes from the rightmost six bits), for every aliasing combination of
the output with the inputs: when the output register aliases the count
register, the emitted sequence first copies the count into the reserved
scratch register and shifts using it, so the count is read before being
clobbered.  The scratch register is never allocator-assigned, hence distinct
from all operands. -/
theorem C7_shift32_register_count (scr out in0 cnt : Reg) (f : RegFile Nat)
    (hso : out ≠ scr) (hs0 : in0 ≠ scr) (hsc : cnt ≠ scr) :
    emitShiftLeft32 scr out in0 cnt f out = sll32 (f in0) (f cnt) ∧
    emitShiftRight32 scr out in0 cnt f out = srl32 (f in0) (f cnt) ∧
    emitShiftRightAlg32 scr out in0 cnt f out = sra32 (f in0) (f cnt) ∧
    sll32 (f in0) (f cnt) = sll32 (f in0) (f cnt % 64) ∧
    srl32 (f in0) (f cnt) = srl32 (f in0) (f cnt % 64) ∧
    sra32 (f in0) (f cnt) = sra32 (f in0) (f cnt % 64) := by
  have hm : f cnt % 64 % 64 = f cnt % 64 := by omega
  refine ⟨?_, ?_, ?_, ?_, ?_, ?_⟩
  · unfold emitShiftLeft32 ShiftLeftMacro
    by_cases hoc : out = cnt
    · subst hoc
      by_cases hoi : out = in0
      · subst hoi; simp [setReg, hso, hs0, Ne.symm hso]
      · simp [setReg, hso, hs0, hoi, Ne.symm hso, Ne.symm hoi]
    · by_cases hoi : out = in0
      · subst hoi; simp [setReg, hoc, Ne.symm hoc]
      · simp [setReg, hoc, hoi, Ne.symm hoi, Ne.symm hoc]
  · unfold emitShiftRight32 ShiftRightMacro
    by_cases hoc : out = cnt
    · subst hoc
      by_cases hoi : out = in0
      · subst hoi; simp [setReg, hso, hs0, Ne.symm hso]
      · simp [setReg, hso, hs0, hoi, Ne.symm hso, Ne.symm hoi]
    · by_cases hoi : out = in0
      · subst hoi; simp [setReg, hoc, Ne.symm hoc]
      · simp [setReg, hoc, hoi, Ne.symm hoi, Ne.symm hoc]
  · unfold emitShiftRightAlg32 ShiftRightArithMacro
    by_cases hoc : out = cnt
    · subst hoc
      by_cases hoi : out = in0
      · subst hoi; simp [setReg, hso, hs0, Ne.symm hso]
      · simp [setReg, hso, hs0, hoi, Ne.symm hso, Ne.symm hoi]
    · by_cases hoi : out = in0
      · subst hoi; simp [setReg, hoc, Ne.symm hoc]
      · simp [setReg, hoc, hoi, Ne.symm hoi, Ne.symm hoc]
  · unfold sll32; rw [hm]
  · unfold srl32; rw [hm]
  · unfold sra32; rw [hm]

/-- C7 witness: the theorem applied with the output aliasing the count
register (registers 1 and 0, scratch 9). -/
theorem C7_shift32_register_count_witness :
    emitShiftLeft32 9 0 1 0 (fun x => x) 0 = sll32 1 0 := by
  have h := C7_shift32_register_count 9 0 1 0 (fun x => x)
    (by decide) (by decide) (by decide)
  exact h.1

/-- C8 counterexample: the claim describes the pc invariant as established
by emitting an even number of 2-byte nops.  With patch size 4, a previous
lazy-deopt pc of 0 and a current pc of 2, the (even) padding is 2 bytes and
the loop emits exactly one nop, an odd number, refuting the parenthetical
mechanism as stated. -/
theorem C8_counterexample :
    nopsEmitted 4 0 2 = 1 ∧ ¬ (2 ∣ nopsEmitted 4 0 2) ∧
      lazyDeoptPadding 4 0 2 % 2 = 0 := by
  decide

/-- C8 (amended): whenever lazy-deopt space assurance is enabled, after every
call to EnsureSpaceForLazyDeopt the current code offset is at least the
previous lazy-deopt call site's recorded offset plus the deoptimizer patch
size, so consecutive lazy-deopt-eligible call sites are separated by at
least the patch size.  The invariant is established by emitting 2-byte nops
whose total size covers the shortfall: when the padding byte count is even
(which the source asserts) the number of nops is exactly half the padding,
a number that need not itself be even. -/
theorem C8_lazy_deopt_space (enabled : Bool) (patch last cur : Nat)
    (h : enabled = true) :
    last + patch ≤ pcAfterEnsureSpace enabled patch last cur ∧
    pcAfterEnsureSpace enabled patch last cur =
      cur + 2 * nopsEmitted patch last cur ∧
    (lazyDeoptPadding patch last cur % 2 = 0 →
      nopsEmitted patch last cur = lazyDeoptPadding patch last cur / 2) ∧
    (last + patch ≤ cur → nopsEmitted patch last cur = 0) := by
  subst h
  have h1 : pcAfterEnsureSpace true patch last cur =
      cur + 2 * nopsEmitted patch last cur := rfl
  refine ⟨?_, h1, ?_, ?_⟩
  · rw [h1]
    unfold nopsEmitted lazyDeoptPadding
    by_cases hc : cur < last + patch
    · rw [if_pos hc]; omega
    · rw [if_neg hc]; omega
  · intro hp
    unfold lazyDeoptPadding at hp
    unfold nopsEmitted lazyDeoptPadding
    by_cases hc : cur < last + patch
    · rw [if_pos hc] at hp
      rw [if_pos hc]
      omega
    · rw [if_neg hc] at hp
      rw [if_neg hc]
  · intro hge
    unfold nopsEmitted lazyDeoptPadding
    rw [if_neg (by omega)]

/-- C8 witness: the amended theorem applied at patch size 4, last pc 0,
current pc 2 with assurance enabled. -/
theorem C8_lazy_deopt_space_witness :
    4 ≤ pcAfterEnsureSpace true 4 0 2 :=
  (C8_lazy_deopt_space true 4 0 2 rfl).1

/-- C9: FlagsConditionToCondition maps the signed and unsigned variants of
each ordering outcome to the same native branch condition; the distinction
is realized at compare-emission time, where CompareLogical selects the
logical compare for unsigned conditions and the arithmetic compare for
signed conditions, so for every compare-and-branch pair over kS390_Cmp32 the
pair of compare instruction and branch condition implements the requested
signed or unsigned 32-bit relation. -/
theorem C9_signed_unsigned_compare (a b : Nat)
    (ha : a < 2 ^ 32) (hb : b < 2 ^ 32) :
    FlagsConditionToCondition FlagsCondition.kSignedLessThan
        ArchOpcode.kS390_Cmp32 =
      FlagsConditionToCondition FlagsCondition.kUnsignedLessThan
        ArchOpcode.kS390_Cmp32 ∧
    FlagsConditionToCondition FlagsCondition.kSignedGreaterThanOrEqual
        ArchOpcode.kS390_Cmp32 =
      FlagsConditionToCondition FlagsCondition.kUnsignedGreaterThanOrEqual
        ArchOpcode.kS390_Cmp32 ∧
    FlagsConditionToCondition FlagsCondition.kSignedLessThanOrEqual
        ArchOpcode.kS390_Cmp32 =
      FlagsConditionToCondition FlagsCondition.kUnsignedLessThanOrEqual
        ArchOpcode.kS390_Cmp32 ∧
    FlagsConditionToCondition FlagsCondition.kSignedGreaterThan
        ArchOpcode.kS390_Cmp32 =
      FlagsConditionToCondition FlagsCondition.kUnsignedGreaterThan
        ArchOpcode.kS390_Cmp32 ∧
    CompareLogical FlagsCondition.kUnsignedLessThan = true ∧
    CompareLogical FlagsCondition.kSignedLessThan = false ∧
    compareBranchTaken FlagsCondition.kSignedLessThan a b =
      some (decide (toSigned32 a < toSigned32 b)) ∧
    compareBranchTaken FlagsCondition.kUnsignedLessThan a b =
      some (decide (a < b)) ∧
    compareBranchTaken FlagsCondition.kSignedGreaterThanOrEqual a b =
      some (decide (toSigned32 b ≤ toSigned32 a)) ∧
    compareBranchTaken FlagsCondition.kUnsignedGreaterThanOrEqual a b =
      some (decide (b ≤ a)) ∧
    compareBranchTaken FlagsCondition.kSignedLessThanOrEqual a b =
      some (decide (toSigned32 a ≤ toSigned32 b)) ∧
    compareBranchTaken FlagsCondition.kUnsignedLessThanOrEqual a b =
      some (decide (a ≤ b)) ∧
    compareBranchTaken FlagsCondition.kSignedGreaterThan a b =
      some (decide (toSigned32 b < toSigned32 a)) ∧
    compareBranchTaken FlagsCondition.kUnsignedGreaterThan a b =
      some (decide (b < a)) := by
  have hma : a % 2 ^ 32 = a := Nat.mod_eq_of_lt ha
  have hmb : b % 2 ^ 32 = b := Nat.mod_eq_of_lt hb
  refine ⟨rfl, rfl, rfl, rfl, rfl, rfl, ?_, ?_, ?_, ?_, ?_, ?_, ?_, ?_⟩
  · show some (condTaken Cond.lt (intCmpCC (toSigned32 a) (toSigned32 b))) = _
    rw [condTaken_lt_intCmpCC]
  · show some (condTaken Cond.lt
      (intCmpCC ((a % 2 ^ 32 : Nat) : Int) ((b % 2 ^ 32 : Nat) : Int))) = _
    rw [condTaken_lt_intCmpCC, hma, hmb]
    simp
  · show some (condTaken Cond.ge (intCmpCC (toSigned32 a) (toSigned32 b))) = _
    rw [condTaken_ge_intCmpCC]
  · show some (condTaken Cond.ge
      (intCmpCC ((a % 2 ^ 32 : Nat) : Int) ((b % 2 ^ 32 : Nat) : Int))) = _
    rw [condTaken_ge_intCmpCC, hma, hmb]
    simp
  · show some (condTaken Cond.le (intCmpCC (toSigned32 a) (toSigned32 b))) = _
    rw [condTaken_le_intCmpCC]
  · show some (condTaken Cond.le
      (intCmpCC ((a % 2 ^ 32 : Nat) : Int) ((b % 2 ^ 32 : Nat) : Int))) = _
    rw [condTaken_le_intCmpCC, hma, hmb]
    simp
  · show some (condTaken Cond.gt (intCmpCC (toSigned32 a) (toSigned32 b))) = _
    rw [condTaken_gt_intCmpCC]
  · show some (condTaken Cond.gt
      (intCmpCC ((a % 2 ^ 32 : Nat) : Int) ((b % 2 ^ 32 : Nat) : Int))) = _
    rw [condTaken_gt_intCmpCC, hma, hmb]
    simp

/-- C9 witness: the theorem applied at the values 1 and 0x80000000, on which
the signed and unsigned 32-bit orderings disagree. -/
theorem C9_signed_unsigned_compare_witness :
    compareBranchTaken FlagsCondition.kSignedLessThan 1 (2 ^ 31) =
      some false ∧
    compareBranchTaken FlagsCondition.kUnsignedLessThan 1 (2 ^ 31) =
      some true := by
  have h := C9_signed_unsigned_compare 1 (2 ^ 31) (by norm_num) (by norm_num)
  refine ⟨?_, ?_⟩
  · rw [h.2.2.2.2.2.2.1]
    decide
  · rw [h.2.2.2.2.2.2.2.1]
    decide

/-- C10: for a subtract-with-overflow instruction whose second operand is an
immediate, the emitted sequence computes AddAndCheckForOverflow of the first
input and the wrapped arithmetic negation of the immediate rather than a
subtraction; for every immediate representable as a negatable 32-bit integer
(every 32-bit imm except the minimal value) that negation is exactly -imm,
and the result value and overflow condition coincide with true 32-bit
subtract-with-overflow semantics. -/
theorem C10_sub_with_overflow_imm (a imm : Int)
    (ha1 : -(2 ^ 31) ≤ a) (ha2 : a < 2 ^ 31)
    (hi1 : -(2 ^ 31) ≤ imm) (hi2 : imm < 2 ^ 31)
    (hmin : imm ≠ -(2 ^ 31)) :
    assembleSubWithOverflowImm a imm = AddAndCheckForOverflow a (negInt32 imm) ∧
    negInt32 imm = -imm ∧
    assembleSubWithOverflowImm a imm = subWithOverflow32 a imm := by
  have hneg : negInt32 imm = -imm := by
    unfold negInt32 wrap32
    rw [Int.emod_eq_of_lt (by omega) (by omega)]
    ring
  refine ⟨rfl, hneg, ?_⟩
  unfold assembleSubWithOverflowImm AddAndCheckForOverflow subWithOverflow32
  rw [hneg]
  simp [sub_eq_add_neg]

/-- C10 witness: the theorem applied at input 5 and immediate 3. -/
theorem C10_sub_with_overflow_imm_witness :
    assembleSubWithOverflowImm 5 3 = subWithOverflow32 5 3 :=
  (C10_sub_with_overflow_imm 5 3 (by norm_num) (by norm_num) (by norm_num)
    (by norm_num) (by norm_num)).2.2

theorem multiPush_sp (rs : List Nat) (s : MState) :
    (multiPush rs s).sp = s.sp - rs.length := by
  induction rs generalizing s with
  | nil => simp [multiPush]
  | cons r rest ih =>
    rw [multiPush, ih]
    simp only [pushReg, pushVal, List.length_cons]
    push_cast
    ring

theorem multiPush_regs (rs : List Nat) (s : MState) :
    (multiPush rs s).regs = s.regs := by
  induction rs generalizing s with
  | nil => rfl
  | cons r rest ih => rw [multiPush, ih]; rfl

theorem multiPush_fregs (rs : List Nat) (s : MState) :
    (multiPush rs s).fregs = s.fregs := by
  induction rs generalizing s with
  | nil => rfl
  | cons r rest ih => rw [multiPush, ih]; rfl

theorem multiPush_mem_high (rs : List Nat) (s : MState) (a : Int)
    (h : s.sp ≤ a) : (multiPush rs s).mem a = s.mem a := by
  induction rs generalizing s with
  | nil => rfl
  | cons r rest ih =>
    have h1 : (pushReg s r).sp ≤ a := by
      simp only [pushReg, pushVal]
      omega
    rw [multiPush, ih _ h1]
    simp only [pushReg, pushVal]
    rw [if_neg (by omega)]

theorem multiPush_mem_val (rs : List Nat) (s : MState) (i : Nat)
    (h : i < rs.length) :
    (multiPush rs s).mem (s.sp - 1 - i) = s.regs (rs.get ⟨i, h⟩) := by
  induction rs generalizing s i with
  | nil => exact absurd h (by simp)
  | cons r rest ih =>
    match i with
    | 0 =>
      rw [multiPush]
      rw [multiPush_mem_high rest _ _ (by simp only [pushReg, pushVal]; omega)]
      simp [pushReg, pushVal]
    | Nat.succ j =>
      rw [multiPush]
      have hj : j < rest.length := by simpa using h
      have hadr : s.sp - 1 - ((Nat.succ j : Nat) : Int) =
          (pushReg s r).sp - 1 - (j : Int) := by
        simp only [pushReg, pushVal]
        push_cast
        ring
      rw [hadr, ih (pushReg s r) j hj]
      rfl

theorem multiPushDoubles_sp (rs : List Nat) (s : MState) :
    (multiPushDoubles rs s).sp = s.sp - rs.length := by
  induction rs generalizing s with
  | nil => simp [multiPushDoubles]
  | cons r rest ih =>
    rw [multiPushDoubles, ih]
    simp only [pushFReg, pushVal, List.length_cons]
    push_cast
    ring

theorem multiPushDoubles_regs (rs : List Nat) (s : MState) :
    (multiPushDoubles rs s).regs = s.regs := by
  induction rs generalizing s with
  | nil => rfl
  | cons r rest ih => rw [multiPushDoubles, ih]; rfl

theorem multiPushDoubles_fregs (rs : List Nat) (s : MState) :
    (multiPushDoubles rs s).fregs = s.fregs := by
  induction rs generalizing s with
  | nil => rfl
  | cons r rest ih => rw [multiPushDoubles, ih]; rfl

theorem multiPushDoubles_mem_high (rs : List Nat) (s : MState) (a : Int)
    (h : s.sp ≤ a) : (multiPushDoubles rs s).mem a = s.mem a := by
  induction rs generalizing s with
  | nil => rfl
  | cons r rest ih =>
    have h1 : (pushFReg s r).sp ≤ a := by
      simp only [pushFReg, pushVal]
      omega
    rw [multiPushDoubles, ih _ h1]
    simp only [pushFReg, pushVal]
    rw [if_neg (by omega)]

theorem multiPushDoubles_mem_val (rs : List Nat) (s : MState) (i : Nat)
    (h : i < rs.length) :
    (multiPushDoubles rs s).mem (s.sp - 1 - i) = s.fregs (rs.get ⟨i, h⟩) := by
  induction rs generalizing s i with
  | nil => exact absurd h (by simp)
  | cons r rest ih =>
    match i with
    | 0 =>
      rw [multiPushDoubles]
      rw [multiPushDoubles_mem_high rest _ _
        (by simp only [pushFReg, pushVal]; omega)]
      simp [pushFReg, pushVal]
    | Nat.succ j =>
      rw [multiPushDoubles]
      have hj : j < rest.length := by simpa using h
      have hadr : s.sp - 1 - ((Nat.succ j : Nat) : Int) =
          (pushFReg s r).sp - 1 - (j : Int) := by
        simp only [pushFReg, pushVal]
        push_cast
        ring
      rw [hadr, ih (pushFReg s r) j hj]
      rfl

theorem multiPop_spec (rs : List Nat) (s t : MState)
    (hnd : rs.Nodup)
    (hsp : t.sp = s.sp - rs.length)
    (hmem : ∀ i (h : i < rs.length),
      t.mem (s.sp - 1 - i) = s.regs (rs.get ⟨i, h⟩)) :
    (multiPop rs t).sp = s.sp ∧
    (∀ r, r ∈ rs → (multiPop rs t).regs r = s.regs r) ∧
    (∀ r, r ∉ rs → (multiPop rs t).regs r = t.regs r) ∧
    (multiPop rs t).fregs = t.fregs ∧
    (multiPop rs t).mem = t.mem := by
  induction rs generalizing s t with
  | nil =>
    refine ⟨?_, ?_, ?_, rfl, rfl⟩
    · rw [multiPop]
      simpa using hsp
    · intro r hr
      exact absurd hr (by simp)
    · intro r _
      rfl
  | cons r rest ih =>
    have hcons := List.nodup_cons.mp hnd
    have hsp' : t.sp = (pushReg s r).sp - rest.length := by
      simp only [pushReg, pushVal]
      simp only [List.length_cons] at hsp
      push_cast at hsp ⊢
      omega
    have hmem' : ∀ i (h : i < rest.length),
        t.mem ((pushReg s r).sp - 1 - i) = (pushReg s r).regs (rest.get ⟨i, h⟩) := by
      intro i h
      have h2 := hmem (i + 1) (by simpa using Nat.succ_lt_succ h)
      have hadr : (pushReg s r).sp - 1 - (i : Int) =
          s.sp - 1 - ((i + 1 : Nat) : Int) := by
        simp only [pushReg, pushVal]
        push_cast
        ring
      rw [hadr, h2]
      rfl
    obtain ⟨hsp2, hin2, hout2, hf2, hm2⟩ := ih (pushReg s r) t hcons.2 hsp' hmem'
    have hspv : (multiPop rest t).sp = s.sp - 1 := by
      rw [hsp2]
      rfl
    rw [multiPop]
    refine ⟨?_, ?_, ?_, ?_, ?_⟩
    · simp only [popReg]
      rw [hspv]
      ring
    · intro r' hr'
      rcases List.mem_cons.mp hr' with hEq | hmem3
      · subst hEq
        simp only [popReg, if_pos rfl]
        rw [hspv, hm2]
        have h0 := hmem 0 (by simp)
        simpa using h0
      · have hne : r' ≠ r := fun hEq => hcons.1 (hEq ▸ hmem3)
        simp only [popReg]
        rw [if_neg hne, hin2 r' hmem3]
        rfl
    · intro r' hr'
      have hnr : r' ∉ rest := fun hm3 => hr' (List.mem_cons_of_mem _ hm3)
      have hne : r' ≠ r := fun hEq => hr' (hEq ▸ List.mem_cons_self r rest)
      simp only [popReg]
      rw [if_neg hne]
      exact hout2 r' hnr
    · simp only [popReg]
      exact hf2
    · simp only [popReg]
      exact hm2

theorem multiPopDoubles_spec (rs : List Nat) (s t : MState)
    (hnd : rs.Nodup)
    (hsp : t.sp = s.sp - rs.length)
    (hmem : ∀ i (h : i < rs.length),
      t.mem (s.sp - 1 - i) = s.fregs (rs.get ⟨i, h⟩)) :
    (multiPopDoubles rs t).sp = s.sp ∧
    (∀ d, d ∈ rs → (multiPopDoubles rs t).fregs d = s.fregs d) ∧
    (∀ d, d ∉ rs → (multiPopDoubles rs t).fregs d = t.fregs d) ∧
    (multiPopDoubles rs t).regs = t.regs ∧
    (multiPopDoubles rs t).mem = t.mem := by
  induction rs generalizing s t with
  | nil =>
    refine ⟨?_, ?_, ?_, rfl, rfl⟩
    · rw [multiPopDoubles]
      simpa using hsp
    · intro d hd
      exact absurd hd (by simp)
    · intro d _
      rfl
  | cons r rest ih =>
    have hcons := List.nodup_cons.mp hnd
    have hsp' : t.sp = (pushFReg s r).sp - rest.length := by
      simp only [pushFReg, pushVal]
      simp only [List.length_cons] at hsp
      push_cast at hsp ⊢
      omega
    have hmem' : ∀ i (h : i < rest.length),
        t.mem ((pushFReg s r).sp - 1 - i) =
          (pushFReg s r).fregs (rest.get ⟨i, h⟩) := by
      intro i h
      have h2 := hmem (i + 1) (by simpa using Nat.succ_lt_succ h)
      have hadr : (pushFReg s r).sp - 1 - (i : Int) =
          s.sp - 1 - ((i + 1 : Nat) : Int) := by
        simp only [pushFReg, pushVal]
        push_cast
        ring
      rw [hadr, h2]
      rfl
    obtain ⟨hsp2, hin2, hout2, hr2, hm2⟩ := ih (pushFReg s r) t hcons.2 hsp' hmem'
    have hspv : (multiPopDoubles rest t).sp = s.sp - 1 := by
      rw [hsp2]
      rfl
    rw [multiPopDoubles]
    refine ⟨?_, ?_, ?_, ?_, ?_⟩
    · simp only [popFReg]
      rw [hspv]
      ring
    · intro d hd
      rcases List.mem_cons.mp hd with hEq | hmem3
      · subst hEq
        simp only [popFReg, if_pos rfl]
        rw [hspv, hm2]
        have h0 := hmem 0 (by simp)
        simpa using h0
      · have hne : d ≠ r := fun hEq => hcons.1 (hEq ▸ hmem3)
        simp only [popFReg]
        rw [if_neg hne, hin2 d hmem3]
        rfl
    · intro d hd
      have hnr : d ∉ rest := fun hm3 => hd (List.mem_cons_of_mem _ hm3)
      have hne : d ≠ r := fun hEq => hd (hEq ▸ List.mem_cons_self r rest)
      simp only [popFReg]
      rw [if_neg hne]
      exact hout2 d hnr
    · simp only [popFReg]
      exact hr2
    · simp only [popFReg]
      exact hm2

theorem prologueShape_spec (k : FrameKind) (s : MState) :
    (prologueShape k s).sp = s.sp - shapeSlots k ∧
    (∀ r, r ≠ fpIdx → (prologueShape k s).regs r = s.regs r) ∧
    (prologueShape k s).fregs = s.fregs ∧
    (∀ a : Int, s.sp ≤ a → (prologueShape k s).mem a = s.mem a) ∧
    (k ≠ FrameKind.elided →
      (prologueShape k s).regs fpIdx = s.sp - 2 ∧
      (prologueShape k s).mem (s.sp - 2) = s.regs fpIdx ∧
      (prologueShape k s).mem (s.sp - 1) = s.regs r14Idx) ∧
    (k = FrameKind.elided → prologueShape k s = s) := by
  cases k with
  | cfun =>
    refine ⟨by simp [prologueShape, pushReg, pushVal, setFP, shapeSlots]; ring,
      ?_, rfl, ?_, ?_, by intro h; cases h⟩
    · intro r hr
      simp [prologueShape, pushReg, pushVal, setFP, hr]
    · intro a ha
      simp only [prologueShape, pushReg, pushVal, setFP]
      rw [if_neg (by omega), if_neg (by omega)]
    · intro _
      refine ⟨by simp [prologueShape, pushReg, pushVal, setFP]; ring, ?_, ?_⟩
      · simp only [prologueShape, pushReg, pushVal, setFP]
        rw [if_pos (by ring)]
      · simp only [prologueShape, pushReg, pushVal, setFP]
        rw [if_neg (by omega)]
        simp
  | js =>
    refine ⟨by simp [prologueShape, pushReg, pushVal, setFP, shapeSlots]; ring,
      ?_, rfl, ?_, ?_, by intro h; cases h⟩
    · intro r hr
      simp [prologueShape, pushReg, pushVal, setFP, hr]
    · intro a ha
      simp only [prologueShape, pushReg, pushVal, setFP]
      rw [if_neg (by omega), if_neg (by omega), if_neg (by omega),
        if_neg (by omega)]
    · intro _
      refine ⟨?_, ?_, ?_⟩
      · simp [prologueShape, pushReg, pushVal, setFP, fpIdx, cpIdx]
        ring
      · simp only [prologueShape, pushReg, pushVal, setFP]
        rw [if_neg (by omega), if_neg (by omega), if_pos (by ring)]
      · simp only [prologueShape, pushReg, pushVal, setFP]
        rw [if_neg (by omega), if_neg (by omega), if_neg (by omega)]
        simp
  | stub =>
    refine ⟨by simp [prologueShape, pushReg, pushVal, setFP, shapeSlots]; ring,
      ?_, rfl, ?_, ?_, by intro h; cases h⟩
    · intro r hr
      simp [prologueShape, pushReg, pushVal, setFP, hr]
    · intro a ha
      simp only [prologueShape, pushReg, pushVal, setFP]
      rw [if_neg (by omega), if_neg (by omega), if_neg (by omega)]
    · intro _
      refine ⟨?_, ?_, ?_⟩
      · simp [prologueShape, pushReg, pushVal, setFP]
        ring
      · simp only [prologueShape, pushReg, pushVal, setFP]
        rw [if_neg (by omega), if_pos (by ring)]
      · simp only [prologueShape, pushReg, pushVal, setFP]
        rw [if_neg (by omega), if_neg (by omega)]
        simp
  | elided =>
    exact ⟨by simp [prologueShape, shapeSlots], fun r _ => rfl, rfl,
      fun a _ => rfl, by intro h; exact absurd rfl h, fun _ => rfl⟩

/-- C5: for every supported frame kind (C-function frame, managed-function
frame, stub frame, elided frame), executing the sequence emitted by
AssemblePrologue, then an arbitrary body that preserves the stack discipline
(stack pointer, frame pointer) and the callee-save area (the block of saved
general and double registers, and the frame header cells holding the caller
frame pointer and return address), then the sequence emitted by
AssembleReturn restores the stack pointer (the callee additionally pops its
declared stack parameters: with a zero stack-parameter count the restoration
is exact), the frame pointer, and every callee-saved general and
floating-point register to its pre-call value.  Restoration order is the
exact inverse of saving order: the prologue pushes doubles before generals,
the epilogue pops generals before doubles, as the definitions of
AssemblePrologue and AssembleReturn exhibit.  An elided frame has no spill
slots, and the register save area does not include fp. -/
theorem C5_prologue_epilogue_roundtrip (k : FrameKind) (shrink popCount : Nat)
    (dsaves saves : List Nat) (s0 : MState) (b : MState → MState)
    (hnd : saves.Nodup) (hdnd : dsaves.Nodup) (hfp : fpIdx ∉ saves)
    (hel : k = FrameKind.elided → shrink = 0)
    (hbsp : (b (AssemblePrologue k shrink dsaves saves s0)).sp =
      (AssemblePrologue k shrink dsaves saves s0).sp)
    (hbfp : (b (AssemblePrologue k shrink dsaves saves s0)).regs fpIdx =
      (AssemblePrologue k shrink dsaves saves s0).regs fpIdx)
    (hbsave : ∀ a : Int, (AssemblePrologue k shrink dsaves saves s0).sp ≤ a →
      a < (AssemblePrologue k shrink dsaves saves s0).sp +
        (saves.length + dsaves.length) →
      (b (AssemblePrologue k shrink dsaves saves s0)).mem a =
        (AssemblePrologue k shrink dsaves saves s0).mem a)
    (hbframe : ∀ a : Int, s0.sp - 2 ≤ a → a < s0.sp →
      (b (AssemblePrologue k shrink dsaves saves s0)).mem a =
        (AssemblePrologue k shrink dsaves saves s0).mem a) :
    (AssembleReturn k popCount dsaves saves
        (b (AssemblePrologue k shrink dsaves saves s0))).sp =
      s0.sp + popCount ∧
    (AssembleReturn k popCount dsaves saves
        (b (AssemblePrologue k shrink dsaves saves s0))).regs fpIdx =
      s0.regs fpIdx ∧
    (∀ r, r ∈ saves →
      (AssembleReturn k popCount dsaves saves
          (b (AssemblePrologue k shrink dsaves saves s0))).regs r =
        s0.regs r) ∧
    (∀ d, d ∈ dsaves →
      (AssembleReturn k popCount dsaves saves
          (b (AssemblePrologue k shrink dsaves saves s0))).fregs d =
        s0.fregs d) := by
  obtain ⟨hAsp, hAregs, hAfregs, hAmem, hAframe, hAelided⟩ := prologueShape_spec k s0
  set sA := prologueShape k s0 with hsA
  set sB := allocSlots shrink sA with hsB
  set sC := multiPushDoubles dsaves sB with hsC
  set s1 := multiPush saves sC with hs1
  have hprol : AssemblePrologue k shrink dsaves saves s0 = s1 := rfl
  rw [hprol] at hbsp hbfp hbsave hbframe ⊢
  set t0 := b s1 with ht0
  have hBsp : sB.sp = sA.sp - (shrink : Int) := rfl
  have hBregs : sB.regs = sA.regs := rfl
  have hBfregs : sB.fregs = sA.fregs := rfl
  have hBmem : sB.mem = sA.mem := rfl
  have hCsp : sC.sp = sB.sp - (dsaves.length : Int) := multiPushDoubles_sp dsaves sB
  have hCregs : sC.regs = sA.regs := by
    rw [hsC, multiPushDoubles_regs, hBregs]
  have hCfregs : sC.fregs = sA.fregs := by
    rw [hsC, multiPushDoubles_fregs, hBfregs]
  have h1sp : s1.sp = sC.sp - (saves.length : Int) := multiPush_sp saves sC
  have h1regs : s1.regs = sA.regs := by
    rw [hs1, multiPush_regs, hCregs]
  -- restore the general registers
  obtain ⟨hu1sp, hu1in, hu1out, hu1f, hu1m⟩ :=
    multiPop_spec saves sC t0 hnd
      (by rw [hbsp, h1sp])
      (by
        intro i h
        have hge : s1.sp ≤ sC.sp - 1 - (i : Int) := by
          rw [h1sp]; push_cast; omega
        have hlt : sC.sp - 1 - (i : Int) <
            s1.sp + ((saves.length : Int) + (dsaves.length : Int)) := by
          rw [h1sp]; push_cast; omega
        have hpres := hbsave _ hge (by push_cast; exact hlt)
        rw [hpres]
        exact multiPush_mem_val saves sC i h)
  -- restore the double registers
  obtain ⟨hu2sp, hu2in, hu2out, hu2r, hu2m⟩ :=
    multiPopDoubles_spec dsaves sB (multiPop saves t0) hdnd
      (by rw [hu1sp, hCsp])
      (by
        intro i h
        rw [hu1m]
        have hge : s1.sp ≤ sB.sp - 1 - (i : Int) := by
          rw [h1sp, hCsp]; push_cast; omega
        have hlt : sB.sp - 1 - (i : Int) <
            s1.sp + ((saves.length : Int) + (dsaves.length : Int)) := by
          rw [h1sp, hCsp]; push_cast; omega
        have hpres := hbsave _ hge (by push_cast; exact hlt)
        rw [hpres]
        have hge2 : sC.sp ≤ sB.sp - 1 - (i : Int) := by
          rw [hCsp]; push_cast; omega
        rw [multiPush_mem_high saves sC _ hge2]
        exact multiPushDoubles_mem_val dsaves sB i h)
  have hu2fp : (multiPopDoubles dsaves (multiPop saves t0)).regs fpIdx =
      sA.regs fpIdx := by
    rw [hu2r, hu1out fpIdx hfp, hbfp]
    exact congrFun h1regs fpIdx
  have hgen : ∀ r, r ∈ saves →
      (multiPopDoubles dsaves (multiPop saves t0)).regs r = s0.regs r := by
    intro r hr
    have hrne : r ≠ fpIdx := fun hEq => hfp (hEq ▸ hr)
    rw [hu2r, hu1in r hr, congrFun hCregs r]
    exact hAregs r hrne
  have hdbl : ∀ d, d ∈ dsaves →
      (multiPopDoubles dsaves (multiPop saves t0)).fregs d = s0.fregs d := by
    intro d hd
    rw [hu2in d hd, congrFun hBfregs d]
    exact congrFun hAfregs d
  have hframed : k ≠ FrameKind.elided →
      AssembleReturn k popCount dsaves saves t0 =
        leaveFrame popCount (multiPopDoubles dsaves (multiPop saves t0)) →
      (AssembleReturn k popCount dsaves saves t0).sp = s0.sp + popCount ∧
      (AssembleReturn k popCount dsaves saves t0).regs fpIdx = s0.regs fpIdx ∧
      (∀ r, r ∈ saves →
        (AssembleReturn k popCount dsaves saves t0).regs r = s0.regs r) ∧
      (∀ d, d ∈ dsaves →
        (AssembleReturn k popCount dsaves saves t0).fregs d = s0.fregs d) := by
    intro hkne hred
    have hsh2 : 2 ≤ shapeSlots k := by
      cases k with
      | elided => exact absurd rfl hkne
      | cfun => decide
      | js => decide
      | stub => decide
    have hmemhdr : ∀ a : Int, s0.sp - 2 ≤ a → a < s0.sp →
        (multiPopDoubles dsaves (multiPop saves t0)).mem a = sA.mem a := by
      intro a h1 h2
      rw [hu2m, hu1m, hbframe a h1 h2]
      have hge : sC.sp ≤ a := by
        rw [hCsp, hBsp, hAsp]; push_cast; omega
      rw [multiPush_mem_high saves sC a hge]
      have hge2 : sB.sp ≤ a := by
        rw [hBsp, hAsp]; push_cast; omega
      rw [multiPushDoubles_mem_high dsaves sB a hge2]
      rfl
    have hfpv : (multiPopDoubles dsaves (multiPop saves t0)).regs fpIdx =
        s0.sp - 2 := by
      rw [hu2fp]
      exact (hAframe hkne).1
    rw [hred]
    refine ⟨?_, ?_, ?_, ?_⟩
    · simp only [leaveFrame]
      rw [hfpv]
      ring
    · simp only [leaveFrame]
      rw [if_pos trivial, hfpv]
      rw [hmemhdr (s0.sp - 2) (by omega) (by omega)]
      exact (hAframe hkne).2.1
    · intro r hr
      have hrfp : r ≠ fpIdx := fun hEq => hfp (hEq ▸ hr)
      simp only [leaveFrame]
      rw [if_neg hrfp]
      by_cases hr14 : r = r14Idx
      · subst hr14
        rw [if_pos rfl, hfpv]
        have hadr : s0.sp - 2 + 1 = s0.sp - 1 := by ring
        rw [hadr, hmemhdr (s0.sp - 1) (by omega) (by omega)]
        exact (hAframe hkne).2.2
      · rw [if_neg hr14]
        exact hgen r hr
    · intro d hd
      simp only [leaveFrame]
      exact hdbl d hd
  cases k with
  | elided =>
    have hsh : shrink = 0 := hel rfl
    have hAeq : sA = s0 := hAelided rfl
    have hred : AssembleReturn FrameKind.elided popCount dsaves saves t0 =
        { multiPopDoubles dsaves (multiPop saves t0) with
            sp := (multiPopDoubles dsaves (multiPop saves t0)).sp + popCount } :=
      rfl
    rw [hred]
    refine ⟨?_, ?_, ?_, ?_⟩
    · show (multiPopDoubles dsaves (multiPop saves t0)).sp + (popCount : Int) =
        s0.sp + popCount
      rw [hu2sp, hBsp, hAsp, hsh]
      norm_num [shapeSlots]
    · show (multiPopDoubles dsaves (multiPop saves t0)).regs fpIdx =
        s0.regs fpIdx
      rw [hu2fp, hAeq]
    · intro r hr
      exact hgen r hr
    · intro d hd
      exact hdbl d hd
  | cfun => exact hframed (by intro h; cases h) rfl
  | js => exact hframed (by intro h; cases h) rfl
  | stub => exact hframed (by intro h; cases h) rfl

/-- C5 witness: the round-trip theorem applied to a concrete C-function
frame with one spill slot, one saved double register and two saved general
registers, the identity body, and no stack parameters. -/
theorem C5_prologue_epilogue_roundtrip_witness :
    (AssembleReturn FrameKind.cfun 0 [1] [6, 7]
        (id (AssemblePrologue FrameKind.cfun 1 [1] [6, 7]
          ⟨100, fun r => (r : Int), fun d => (d : Int) + 50, fun _ => 0⟩))).sp =
      100 ∧
    (AssembleReturn FrameKind.cfun 0 [1] [6, 7]
        (id (AssemblePrologue FrameKind.cfun 1 [1] [6, 7]
          ⟨100, fun r => (r : Int), fun d => (d : Int) + 50,
            fun _ => 0⟩))).regs 6 = 6 := by
  have h := C5_prologue_epilogue_roundtrip FrameKind.cfun 1 0 [1] [6, 7]
    ⟨100, fun r => (r : Int), fun d => (d : Int) + 50, fun _ => 0⟩ id
    (by decide) (by decide) (by decide)
    (by intro hq; exact absurd hq (by decide))
    rfl rfl (fun a _ _ => rfl) (fun a _ _ => rfl)
  refine ⟨?_, ?_⟩
  · have h1 := h.1
    simpa using h1
  · have h2 := h.2.2.1 6 (by decide)
    simpa using h2

end S390
